import Mathlib

set_option maxRecDepth 100000

/-!
Verification of the raft-log engine (`rfengine`) and of the KV-engine
statistics aggregator (`kvengine/stats.rs`) of this repository.

Byte strings are modelled as `List Nat`; machine integers as `Nat` with
explicit `% 2^w` truncation at the points where the code casts.  `BTreeMap`
is modelled as an association list ordered by the lexicographic byte order,
`VecDeque` and `Vec` as `List`.  Code that can abort (index out of bounds,
invalid range) is modelled with `Except`.
-/

/-- Byte strings (`Bytes` / `&[u8]` in the source). -/
abbrev Bytes := List Nat

/-- Strict lexicographic order on byte strings (the `Ord` of Rust slices:
a proper prefix is smaller than its extensions). -/
def lexLt : Bytes → Bytes → Bool
  | [], [] => false
  | [], _ :: _ => true
  | _ :: _, [] => false
  | a :: as, b :: bs => if a < b then true else if b < a then false else lexLt as bs

/-- Non-strict lexicographic order on byte strings. -/
def lexLe : Bytes → Bytes → Bool
  | [], _ => true
  | _ :: _, [] => false
  | a :: as, b :: bs => if a < b then true else if b < a then false else lexLe as bs

/-- `hasPre p k` iff `k` starts with `p` (the `starts_with` of byte slices). -/
def hasPre : Bytes → Bytes → Bool
  | [], _ => true
  | _ :: _, [] => false
  | a :: as, b :: bs => (a == b) && hasPre as bs

/-- `BTreeMap::get`: first binding of the key in the association list. -/
def getState : List (Bytes × Bytes) → Bytes → Option Bytes
  | [], _ => none
  | kv :: rest, k => if kv.1 = k then some kv.2 else getState rest k

/-- `BTreeMap::insert`: put the binding at its ordered position, replacing
an existing binding of the same key. -/
def insertState : List (Bytes × Bytes) → Bytes → Bytes → List (Bytes × Bytes)
  | [], k, v => [(k, v)]
  | kv :: rest, k, v =>
    if lexLt k kv.1 then (k, v) :: kv :: rest
    else if k = kv.1 then (k, v) :: rest
    else kv :: insertState rest k v

/-- `BTreeMap::remove`: drop the binding of the key (a map holds at most one
binding per key, so a filter is an equivalent formulation). -/
def removeState (m : List (Bytes × Bytes)) (k : Bytes) : List (Bytes × Bytes) :=
  m.filter (fun kv => kv.1 != k)

/-- All keys of the list are lexicographically above `k`. -/
def ltAllB (k : Bytes) (m : List (Bytes × Bytes)) : Bool :=
  m.all (fun kv => lexLt k kv.1)

/-- The association list is strictly sorted by key — the `BTreeMap`
representation invariant. -/
def sortedStrictB : List (Bytes × Bytes) → Bool
  | [] => true
  | kv :: rest => ltAllB kv.1 rest && sortedStrictB rest

/-- Every key occurs at most once — implied by `sortedStrictB`, and the part
of the map invariant some proofs need. -/
def nodupKeysB : List (Bytes × Bytes) → Bool
  | [] => true
  | kv :: rest => rest.all (fun q => q.1 != kv.1) && nodupKeysB rest

/-- Little-endian encoding of `n` on `w` bytes (`put_uNN_le`; wider values
are truncated exactly as the `as uNN` casts in the source). -/
def leBytes : Nat → Nat → List Nat
  | 0, _ => []
  | w + 1, n => n % 256 :: leBytes w (n / 256)

/-- Little-endian read of `w` bytes (`LittleEndian::read_uNN`). -/
def readLE : Nat → List Nat → Nat
  | 0, _ => 0
  | _ + 1, [] => 0
  | w + 1, b :: rest => b + 256 * readLE w rest

/-- One raft entry as stored by the engine (spec §3): `index`, `term`,
`entry_type` discriminant, `data`, `context`. -/
structure RaftLogOp where
  index : Nat
  term : Nat
  entry_type : Nat
  data : Bytes
  context : Bytes
deriving DecidableEq

/-- Modelled from the spec: `RaftLogOp::encoded_len` lives in
`log_batch.rs`, which is not part of the provided sources.  Spec §4.1 fixes
a self-delimited little-endian layout carrying `index`, `term`, the
`entry_type` discriminant, and the length-prefixed `data` and `context`. -/
def RaftLogOp.encoded_len (op : RaftLogOp) : Nat :=
  8 + 8 + 4 + 4 + op.data.length + 4 + op.context.length

/-- Modelled from the spec: `RaftLogOp::encode_to` (missing
`log_batch.rs`); the layout matches `RaftLogOp.encoded_len`. -/
def RaftLogOp.encode_to (op : RaftLogOp) : List Nat :=
  leBytes 8 op.index ++ leBytes 8 op.term ++ leBytes 4 op.entry_type ++
    leBytes 4 op.data.length ++ op.data ++ leBytes 4 op.context.length ++ op.context

/-- Modelled from the spec: `RaftLogOp::decode` (missing `log_batch.rs`),
the exact inverse of `RaftLogOp.encode_to` on valid input. -/
def RaftLogOp.decode (buf : List Nat) : RaftLogOp :=
  let index := readLE 8 buf
  let b1 := buf.drop 8
  let term := readLE 8 b1
  let b2 := b1.drop 8
  let entry_type := readLE 4 b2
  let b3 := b2.drop 4
  let dlen := readLE 4 b3
  let b4 := b3.drop 4
  let data := b4.take dlen
  let b5 := b4.drop dlen
  let clen := readLE 4 b5
  let b6 := b5.drop 4
  let context := b6.take clen
  ⟨index, term, entry_type, data, context⟩

/-- The fields of the op fit the machine widths of the encoding. -/
def RaftLogOp.wfOp (op : RaftLogOp) : Prop :=
  op.index < 2 ^ 64 ∧ op.term < 2 ^ 64 ∧ op.entry_type < 2 ^ 32 ∧
    op.data.length < 2 ^ 32 ∧ op.context.length < 2 ^ 32

instance (op : RaftLogOp) : Decidable op.wfOp := by
  unfold RaftLogOp.wfOp; infer_instance

/-- Indices of consecutive entries are consecutive — the normalized-deque
invariant of spec §3 (a log is densely indexed). -/
def contigB : List RaftLogOp → Bool
  | [] => true
  | [_] => true
  | a :: b :: rest => (b.index == a.index + 1) && contigB (b :: rest)

/-- Modelled from the spec: `RaftLogBlock` (missing `log_batch.rs`), an
ordered run of ops with contiguous indices. -/
structure RaftLogBlock where
  ops : List RaftLogOp
deriving DecidableEq

def RaftLogBlock.first_index (b : RaftLogBlock) : Nat :=
  (b.ops.head?.map RaftLogOp.index).getD 0

def RaftLogBlock.last_index (b : RaftLogBlock) : Nat :=
  (b.ops.getLast?.map RaftLogOp.index).getD 0

/-- Modelled from the spec: `RaftLogs` (missing `log_batch.rs`), an ordered
sequence of blocks covering `[first_index, last_index+1)`; `first_index == 0`
iff the log is empty. -/
structure RaftLogs where
  blocks : List RaftLogBlock
deriving DecidableEq

def RaftLogs.first_index (l : RaftLogs) : Nat :=
  (l.blocks.head?.map RaftLogBlock.first_index).getD 0

def RaftLogs.last_index (l : RaftLogs) : Nat :=
  (l.blocks.getLast?.map RaftLogBlock.last_index).getD 0

/-- Helper of `RaftLogs.truncate`: walk the blocks in order, discarding the
entries at indices `≤ idx`; a partially covered block is split at the
boundary. -/
def truncBlocks (idx : Nat) : List RaftLogBlock → List RaftLogBlock × List RaftLogBlock
  | [] => ([], [])
  | b :: rest =>
    if b.last_index ≤ idx then
      let r := truncBlocks idx rest
      (r.1, b :: r.2)
    else if idx < b.first_index then (b :: rest, [])
    else ((⟨b.ops.dropWhile (fun o => o.index ≤ idx)⟩ : RaftLogBlock) :: rest,
      [⟨b.ops.takeWhile (fun o => o.index ≤ idx)⟩])

/-- Modelled from the spec: `RaftLogs::truncate` (missing `log_batch.rs`,
spec §4.1/§3): drop the entries with index `≤ idx` and return the wholly or
partially discarded blocks. -/
def RaftLogs.truncate (l : RaftLogs) (idx : Nat) : RaftLogs × List RaftLogBlock :=
  let r := truncBlocks idx l.blocks
  (⟨r.1⟩, r.2)

/-- Helper of `RaftLogs.append`: pop ops (given back-to-front) until the
back op's index is `target - 1`, or nothing is left.  Returns (kept ops,
still back-to-front; discarded ops). -/
def popOps (target : Nat) : List RaftLogOp → List RaftLogOp × List RaftLogOp
  | [] => ([], [])
  | o :: rest =>
    if o.index + 1 == target then (o :: rest, [])
    else
      let r := popOps target rest
      (r.1, o :: r.2)

/-- Helper of `RaftLogs.append`: the popping of `popOps` at block
granularity, on the reversed block list. -/
def popBlocks (target : Nat) : List RaftLogBlock → List RaftLogBlock × List RaftLogBlock
  | [] => ([], [])
  | b :: rest =>
    let r := popOps target b.ops.reverse
    if r.1.isEmpty then
      let r2 := popBlocks target rest
      (r2.1, (⟨r.2.reverse⟩ : RaftLogBlock) :: r2.2)
    else ((⟨r.1.reverse⟩ : RaftLogBlock) :: rest,
      if r.2.isEmpty then [] else [⟨r.2.reverse⟩])

/-- Modelled from the spec: `RaftLogs::append` (missing `log_batch.rs`,
spec §4.3 step 5): conflict-resolution analogous to
`RegionBatch::append_raft_log` — pop entries from the back until the back
index is `op.index - 1` (or the log is empty), push `op`, and return the
discarded tail blocks. -/
def RaftLogs.append (l : RaftLogs) (op : RaftLogOp) : RaftLogs × List RaftLogBlock :=
  let r := popBlocks op.index l.blocks.reverse
  match r.1 with
  | [] => (⟨[⟨[op]⟩]⟩, r.2)
  | b :: rest => (⟨((⟨b.ops ++ [op]⟩ : RaftLogBlock) :: rest).reverse⟩, r.2)

/-- `RegionBatch` (engine.rs): the staged, in-memory mutation set for one
region inside a write batch. -/
structure RegionBatch where
  region_id : Nat
  truncated_idx : Nat
  states : List (Bytes × Bytes)
  raft_logs : List RaftLogOp
deriving DecidableEq

def RegionBatch.new (region_id : Nat) : RegionBatch :=
  { region_id, truncated_idx := 0, states := [], raft_logs := [] }

/-- `RegionBatch::truncate`: pop front entries with index `< idx`, record
`truncated_idx = idx`. -/
def RegionBatch.truncate (b : RegionBatch) (idx : Nat) : RegionBatch :=
  { b with raft_logs := b.raft_logs.dropWhile (fun o => o.index < idx), truncated_idx := idx }

/-- `RegionBatch::set_state`. -/
def RegionBatch.set_state (b : RegionBatch) (key val : Bytes) : RegionBatch :=
  { b with states := insertState b.states key val }

/-- Helper of `RegionBatch.append_raft_log`: the pop-from-the-back loop, on
the reversed deque: pop while the back op's index is not `target - 1`. -/
def dropBackUntil (target : Nat) : List RaftLogOp → List RaftLogOp
  | [] => []
  | o :: rest => if o.index + 1 == target then o :: rest else dropBackUntil target rest

/-- `RegionBatch::append_raft_log`: pop entries from the back until the back
entry's index is `op.index - 1` (or the deque is empty), then push `op`. -/
def RegionBatch.append_raft_log (b : RegionBatch) (op : RaftLogOp) : RegionBatch :=
  { b with raft_logs := (dropBackUntil op.index b.raft_logs.reverse).reverse ++ [op] }

/-- `RegionBatch::merge`. -/
def RegionBatch.merge (b : RegionBatch) (other : RegionBatch) : RegionBatch :=
  let b1 := other.states.foldl (fun acc kv => { acc with states := insertState acc.states kv.1 kv.2 }) b
  let b2 := other.raft_logs.foldl (fun acc op => acc.append_raft_log op) b1
  if b2.truncated_idx < other.truncated_idx then { b2 with truncated_idx := other.truncated_idx } else b2

/-- `RegionBatch::encoded_len`: the 36-byte fixed header, `2 + key len +
4 + val len` per state, 4 bytes of offset plus the op's encoded length per
staged log op. -/
def RegionBatch.encoded_len (b : RegionBatch) : Nat :=
  8 + 8 + 8 + 8 + 4 +
    (b.states.map (fun kv => 2 + kv.1.length + 4 + kv.2.length)).sum +
    b.raft_logs.length * 4 +
    (b.raft_logs.map RaftLogOp.encoded_len).sum

/-- The state section of `RegionBatch::encode_to`. -/
def encStates : List (Bytes × Bytes) → List Nat
  | [] => []
  | kv :: rest =>
    leBytes 2 kv.1.length ++ kv.1 ++ leBytes 4 kv.2.length ++ kv.2 ++ encStates rest

/-- The log-offset section of `RegionBatch::encode_to`: one little-endian
u32 per op holding the cumulative encoded length. -/
def encLogIdx : List RaftLogOp → Nat → List Nat
  | [], _ => []
  | op :: rest, endOff =>
    leBytes 4 (endOff + op.encoded_len) ++ encLogIdx rest (endOff + op.encoded_len)

/-- The log section of `RegionBatch::encode_to`: the concatenated encoded
ops. -/
def encLogs : List RaftLogOp → List Nat
  | [] => []
  | op :: rest => op.encode_to ++ encLogs rest

/-- `RegionBatch::encode_to` (engine.rs lines 150-172). -/
def RegionBatch.encode_to (b : RegionBatch) : List Nat :=
  let first := (b.raft_logs.head?.map RaftLogOp.index).getD 0
  let endIdx := (b.raft_logs.getLast?.map (fun o => o.index + 1)).getD 0
  leBytes 8 b.region_id ++ leBytes 8 first ++ leBytes 8 endIdx ++
    leBytes 8 b.truncated_idx ++ leBytes 4 b.states.length ++
    encStates b.states ++ encLogIdx b.raft_logs 0 ++ encLogs b.raft_logs

/-- The state-reading loop of `RegionBatch::decode`: read `n` states, insert
each into the map, return the map and the remaining buffer. -/
def decStates : Nat → List Nat → List (Bytes × Bytes) → List (Bytes × Bytes) × List Nat
  | 0, buf, acc => (acc, buf)
  | n + 1, buf, acc =>
    let key_len := readLE 2 buf
    let b1 := buf.drop 2
    let key := b1.take key_len
    let b2 := b1.drop key_len
    let val_len := readLE 4 b2
    let b3 := b2.drop 4
    let val := b3.take val_len
    let b4 := b3.drop val_len
    decStates n b4 (insertState acc key val)

/-- The log-reading loop of `RegionBatch::decode`: for each op read its end
offset from the offset section and decode the byte slice
`[start_index, end_index)` of the log section. -/
def decLogs : Nat → List Nat → List Nat → Nat → List RaftLogOp → List RaftLogOp
  | 0, _, _, _, acc => acc
  | n + 1, idxbuf, logbuf, start, acc =>
    let endi := readLE 4 idxbuf
    let op := RaftLogOp.decode ((logbuf.drop start).take (endi - start))
    decLogs n (idxbuf.drop 4) logbuf endi (acc ++ [op])

/-- `RegionBatch::decode` (engine.rs lines 174-210). -/
def RegionBatch.decode (buf : List Nat) : RegionBatch :=
  let region_id := readLE 8 buf
  let b1 := buf.drop 8
  let first := readLE 8 b1
  let b2 := b1.drop 8
  let endIdx := readLE 8 b2
  let b3 := b2.drop 8
  let truncated_idx := readLE 8 b3
  let b4 := b3.drop 8
  let states_len := readLE 4 b4
  let b5 := b4.drop 4
  let s := decStates states_len b5 []
  let num_logs := endIdx - first
  let idxbuf := s.2.take (num_logs * 4)
  let b6 := s.2.drop (num_logs * 4)
  let raft_logs := decLogs num_logs idxbuf b6 0 []
  { region_id, truncated_idx, states := s.1, raft_logs }

/-- Well-formedness of a `RegionBatch` for the round-trip law: the fields
fit their encoded machine widths, the state map is strictly sorted (the
`BTreeMap` invariant) and the staged deque is index-contiguous (the
normalized-deque invariant of spec §3). -/
def RegionBatch.wfB (b : RegionBatch) : Prop :=
  b.region_id < 2 ^ 64 ∧ b.truncated_idx < 2 ^ 64 ∧
    b.states.length < 2 ^ 32 ∧
    (∀ kv ∈ b.states, kv.1.length < 2 ^ 16 ∧ kv.2.length < 2 ^ 32) ∧
    sortedStrictB b.states = true ∧
    contigB b.raft_logs = true ∧
    (∀ op ∈ b.raft_logs, op.wfOp) ∧
    (∀ back, b.raft_logs.getLast? = some back → back.index + 1 < 2 ^ 64) ∧
    (b.raft_logs.map RaftLogOp.encoded_len).sum < 2 ^ 32

instance (b : RegionBatch) : Decidable b.wfB := by
  unfold RegionBatch.wfB; infer_instance

/-- `RegionData` (engine.rs): the authoritative in-memory state of one
region. -/
structure RegionData where
  region_id : Nat
  truncated_idx : Nat
  raft_logs : RaftLogs
  states : List (Bytes × Bytes)
  dependents : List Nat
deriving DecidableEq

def RegionData.new (region_id : Nat) : RegionData :=
  { region_id, truncated_idx := 0, raft_logs := ⟨[]⟩, states := [], dependents := [] }

def RegionData.get_state (rd : RegionData) (key : Bytes) : Option Bytes :=
  getState rd.states key

/-- `RegionData::need_truncate` (engine.rs lines 575-578). -/
def RegionData.need_truncate (rd : RegionData) : Bool :=
  let first := rd.raft_logs.first_index
  rd.dependents.isEmpty && decide (0 < first) && decide (first ≤ rd.truncated_idx)

/-- The state loop of `RegionData::apply`: empty value removes the key,
otherwise insert/overwrite. -/
def applyStates (m : List (Bytes × Bytes)) (bs : List (Bytes × Bytes)) :
    List (Bytes × Bytes) :=
  bs.foldl (fun acc kv => if kv.2 = [] then removeState acc kv.1 else insertState acc kv.1 kv.2) m

/-- One step of the log loop of `RegionData::apply`: append the op and
accumulate the discarded tail blocks. -/
def applyLogStep (acc : RegionData × List RaftLogBlock) (op : RaftLogOp) :
    RegionData × List RaftLogBlock :=
  let r := acc.1.raft_logs.append op
  ({ acc.1 with raft_logs := r.1 }, acc.2 ++ r.2)

/-- `RegionData::apply` (engine.rs lines 550-573): adopt a larger
`truncated_idx`, truncate when `need_truncate`, apply the state mutations,
append the staged ops, return all discarded blocks. -/
def RegionData.apply (rd : RegionData) (batch : RegionBatch) :
    RegionData × List RaftLogBlock :=
  let rd1 : RegionData :=
    if rd.truncated_idx < batch.truncated_idx then
      { rd with truncated_idx := batch.truncated_idx }
    else rd
  let tr : RaftLogs × List RaftLogBlock :=
    if rd1.need_truncate then rd1.raft_logs.truncate rd1.truncated_idx
    else (rd1.raft_logs, [])
  let rd2 : RegionData := { rd1 with raft_logs := tr.1 }
  let rd3 : RegionData := { rd2 with states := applyStates rd2.states batch.states }
  batch.raft_logs.foldl applyLogStep (rd3, tr.2)

/-- The read-side view of `RfEngine`: the concurrent region map as an
association list from region id to `RegionData`. -/
structure RfEngine where
  regions : List (Nat × RegionData)
deriving DecidableEq

/-- `self.regions.get(&region_id)` on the read-side view. -/
def lookupRegion (en : RfEngine) (region_id : Nat) : Option RegionData :=
  (en.regions.find? (fun p => p.1 == region_id)).map Prod.snd

/-- `RfEngine::get_state` (engine.rs lines 325-340): `None` for a missing
region or key, and — deletion semantics — also for an empty stored value. -/
def RfEngine.get_state (en : RfEngine) (region_id : Nat) (key : Bytes) : Option Bytes :=
  match lookupRegion en region_id with
  | none => none
  | some rd =>
    match rd.get_state key with
    | some val => if !val.isEmpty then some val else none
    | none => none

/-- `RfEngine::get_last_index` (engine.rs lines 313-323). -/
def RfEngine.get_last_index (en : RfEngine) (region_id : Nat) : Option Nat :=
  match lookupRegion en region_id with
  | none => none
  | some rd =>
    let last := rd.raft_logs.last_index
    if last = 0 then none else some last

/-- The reverse range loop of `RfEngine::get_last_state_with_prefix`: the
first entry (scanning the in-range entries backwards) whose key is not the
range end is returned. -/
def scanRev (endPre : Bytes) : List (Bytes × Bytes) → Option Bytes
  | [] => none
  | kv :: rest => if kv.1 = endPre then scanRev endPre rest else some kv.2

/-- `RfEngine::get_last_state_with_prefix` (engine.rs lines 342-359).
`end_prefix[prefix.len() - 1] += 1` aborts on an empty prefix; on a prefix
whose last byte is `0xff` the add wraps (release build) and
`BTreeMap::range` aborts on the inverted range — both are modelled as
`Except.error`. -/
def RfEngine.get_last_state_with_pre (en : RfEngine) (region_id : Nat) (p : Bytes) :
    Except String (Option Bytes) :=
  match lookupRegion en region_id with
  | none => .ok none
  | some rd =>
    match p.getLast? with
    | none => .error "index out of bounds"
    | some lastByte =>
      let endPre := p.dropLast ++ [(lastByte + 1) % 256]
      if lexLt endPre p then .error "range start is greater than range end"
      else
        let inRange := rd.states.filter (fun kv => lexLe p kv.1 && lexLt kv.1 endPre)
        .ok (scanRev endPre inRange.reverse)

/-- One step of `maxMatch`: keep the entry with the greater key among the
candidates whose key starts with `p`. -/
def maxMatchStep (p : Bytes) (acc : Option (Bytes × Bytes)) (kv : Bytes × Bytes) :
    Option (Bytes × Bytes) :=
  if hasPre p kv.1 then
    match acc with
    | none => some kv
    | some a => if lexLt a.1 kv.1 then some kv else some a
  else acc

/-- The entry at the greatest key that starts with `p` — the specification's
description of `get_last_state_with_prefix`. -/
def maxMatch (p : Bytes) (states : List (Bytes × Bytes)) : Option (Bytes × Bytes) :=
  states.foldl (maxMatchStep p) none

/-- Number of column families of the KV engine (`NUM_CFS`; the stats
vectors of `EngineStats::new` are sized 3 accordingly). -/
def NUM_CFS : Nat := 3

/-- `LevelStats` (stats.rs). -/
structure LevelStats where
  level : Nat
  num_tables : Nat
  data_size : Nat
deriving DecidableEq

/-- `CFStats` (stats.rs). -/
structure CFStats where
  levels : List LevelStats
deriving DecidableEq

/-- `ShardStats` (stats.rs).  The float-valued `compaction_*` fields and the
debug-formatted key strings are carried opaquely by the source and omitted;
`part_l0s` / `part_tbls` are the source's `partial_l0s` / `partial_tbls`. -/
structure ShardStats where
  id : Nat
  ver : Nat
  start : Bytes
  endKey : Bytes
  active : Bool
  compacting : Bool
  flushed : Bool
  mem_table_count : Nat
  mem_table_size : Nat
  l0_table_count : Nat
  l0_table_size : Nat
  cfs : List CFStats
  base_version : Nat
  max_mem_table_size : Nat
  meta_sequence : Nat
  write_sequence : Nat
  total_size : Nat
  part_l0s : Nat
  part_tbls : Nat
deriving DecidableEq

/-- `EngineStats` of the KV engine (stats.rs); `part_l0_count` /
`part_ln_count` are the source's `partial_l0_count` / `partial_ln_count`. -/
structure EngineStats where
  num_shards : Nat
  num_initial_flushed_shard : Nat
  num_active_shards : Nat
  num_compacting_shards : Nat
  mem_tables_count : Nat
  mem_tables_size : Nat
  l0_tables_count : Nat
  l0_tables_size : Nat
  part_l0_count : Nat
  part_ln_count : Nat
  cfs_num_files : List Nat
  cf_total_sizes : List Nat
  level_num_files : List Nat
  level_total_sizes : List Nat
  top_10_write : List ShardStats
deriving DecidableEq

/-- `EngineStats::new` (stats.rs lines 27-36). -/
def EngineStats.new : EngineStats :=
  { num_shards := 0, num_initial_flushed_shard := 0, num_active_shards := 0,
    num_compacting_shards := 0, mem_tables_count := 0, mem_tables_size := 0,
    l0_tables_count := 0, l0_tables_size := 0, part_l0_count := 0, part_ln_count := 0,
    cfs_num_files := List.replicate 3 0, cf_total_sizes := List.replicate 3 0,
    level_num_files := List.replicate 3 0, level_total_sizes := List.replicate 3 0,
    top_10_write := [] }

/-- `v[i] += x` on a stats vector.  (The source indexes the fixed-size
vectors directly; an out-of-range index cannot occur for the stats the
engine produces and is a no-op here.) -/
def addAt : List Nat → Nat → Nat → List Nat
  | [], _, _ => []
  | a :: rest, 0, x => (a + x) :: rest
  | a :: rest, i + 1, x => a :: addAt rest i x

/-- The per-shard accumulation step of `Engine::get_engine_stats`. -/
def shardFoldStep (es : EngineStats) (shard : ShardStats) : EngineStats :=
  let es :=
    { es with
      num_active_shards := es.num_active_shards + (if shard.active then 1 else 0),
      num_compacting_shards := es.num_compacting_shards + (if shard.compacting then 1 else 0),
      num_initial_flushed_shard :=
        es.num_initial_flushed_shard + (if shard.flushed then 1 else 0),
      mem_tables_count := es.mem_tables_count + shard.mem_table_count,
      mem_tables_size := es.mem_tables_size + shard.mem_table_size,
      l0_tables_count := es.l0_tables_count + shard.l0_table_count,
      l0_tables_size := es.l0_tables_size + shard.l0_table_size,
      part_l0_count := es.part_l0_count + shard.part_l0s,
      part_ln_count := es.part_ln_count + shard.part_tbls }
  (List.range NUM_CFS).foldl
    (fun es cf =>
      ((shard.cfs.getD cf ⟨[]⟩).levels.enum).foldl
        (fun es il =>
          { es with
            level_num_files := addAt es.level_num_files il.1 il.2.num_tables,
            cfs_num_files := addAt es.cfs_num_files cf il.2.num_tables,
            level_total_sizes := addAt es.level_total_sizes il.1 il.2.data_size,
            cf_total_sizes := addAt es.cf_total_sizes cf il.2.data_size })
        es)
    es

/-- The ranking key of `top_10_write`. -/
def writeKey (s : ShardStats) : Nat := s.mem_table_size + s.l0_table_size

/-- Stable descending insertion by `writeKey`: the extensional behaviour of
the source's stable `sort_by(|a, b| b_size.cmp(&a_size))`. -/
def insDesc : List ShardStats → ShardStats → List ShardStats
  | [], x => [x]
  | y :: rest, x => if writeKey x ≤ writeKey y then y :: insDesc rest x else x :: y :: rest

/-- The stable descending sort of the shard list by `writeKey`. -/
def sortByWriteDesc (l : List ShardStats) : List ShardStats := l.foldl insDesc []

/-- `Engine::get_engine_stats` (stats.rs lines 54-91). -/
def get_engine_stats (shard_stats : List ShardStats) : EngineStats :=
  let es := { EngineStats.new with num_shards := shard_stats.length }
  let es := shard_stats.foldl shardFoldStep es
  { es with top_10_write := (sortByWriteDesc shard_stats).take 10 }

/-- A data file of the KV engine: its key range and byte size. -/
structure Table where
  smallest : Bytes
  biggest : Bytes
  size : Nat
deriving DecidableEq

/-- One level of a column family of a shard. -/
structure Level where
  level : Nat
  tables : List Table
deriving DecidableEq

/-- The leveled tables of one column family of a shard. -/
structure SCF where
  levels : List Level
deriving DecidableEq

/-- The read-side view of a KV-engine `Shard` as `Shard::get_stats`
traverses it: memtable sizes, L0 tables, per-CF leveled tables, boundary
and the scalar fields copied into `ShardStats`. -/
structure Shard where
  id : Nat
  ver : Nat
  start : Bytes
  endKey : Bytes
  mem_tbl_sizes : List Nat
  l0_tbls : List Table
  cfs : List SCF
  active : Bool
  compacting : Bool
  flushed : Bool
  base_version : Nat
  max_mem_table_size : Nat
  meta_sequence : Nat
  write_sequence : Nat
deriving DecidableEq

/-- Modelled from the spec: `Shard::cover_full_table` is not part of the
provided sources; a table is fully covered iff its key range lies inside
the shard's `[start, end)` boundary. -/
def Shard.cover_full_table (s : Shard) (smallest biggest : Bytes) : Bool :=
  lexLe s.start smallest && lexLt biggest s.endKey

/-- `self.get_cf(cf)`. -/
def Shard.get_cf (s : Shard) (cf : Nat) : SCF := s.cfs.getD cf ⟨[]⟩

/-- One table of the size/partial-count accumulation of
`Shard::get_stats`: a fully covered table adds its whole size, a partially
covered one adds half its size and bumps the partial counter. -/
def tblStep (s : Shard) (acc : Nat × Nat) (t : Table) : Nat × Nat :=
  if s.cover_full_table t.smallest t.biggest then (acc.1 + t.size, acc.2)
  else (acc.1 + t.size / 2, acc.2 + 1)

/-- One level of the per-CF loop of `Shard::get_stats`: accumulate the
level's `LevelStats` (data size with partial-table halving), the running
partial-table count and the running total size. -/
def levelStep (s : Shard) (lacc : List LevelStats × Nat × Nat) (l : Level) :
    List LevelStats × Nat × Nat :=
  let r := l.tables.foldl (tblStep s) (0, lacc.2.1)
  let ls : LevelStats :=
    { level := l.level, num_tables := l.tables.length, data_size := r.1 }
  (lacc.1 ++ [ls], r.2, lacc.2.2 + r.1)

/-- One column family of the loop of `Shard::get_stats`. -/
def cfStep (s : Shard) (acc : List CFStats × Nat × Nat) (cf : Nat) :
    List CFStats × Nat × Nat :=
  let lr := (s.get_cf cf).levels.foldl (levelStep s) (([] : List LevelStats), acc.2.1, acc.2.2)
  (acc.1 ++ [⟨lr.1⟩], lr.2)

/-- `Shard::get_stats` (stats.rs lines 139-211). -/
def Shard.get_stats (s : Shard) : ShardStats :=
  let mem_table_size := s.mem_tbl_sizes.foldl (· + ·) 0
  let l0r := s.l0_tbls.foldl (tblStep s) (0, 0)
  let cfr :=
    (List.range NUM_CFS).foldl (cfStep s)
      (([] : List CFStats), 0, mem_table_size + l0r.1)
  { id := s.id, ver := s.ver, start := s.start, endKey := s.endKey,
    active := s.active, compacting := s.compacting, flushed := s.flushed,
    mem_table_count := s.mem_tbl_sizes.length, mem_table_size,
    l0_table_count := s.l0_tbls.length, l0_table_size := l0r.1,
    cfs := cfr.1, base_version := s.base_version,
    max_mem_table_size := s.max_mem_table_size, meta_sequence := s.meta_sequence,
    write_sequence := s.write_sequence, total_size := cfr.2.2,
    part_l0s := l0r.2, part_tbls := cfr.2.1 }

/-- The specification's per-table size contribution: whole size when fully
covered, half otherwise. -/
def specTblSize (s : Shard) (ts : List Table) : Nat :=
  (ts.map (fun t => if s.cover_full_table t.smallest t.biggest then t.size else t.size / 2)).sum

/-- The specification's partial-table count: tables not fully covered. -/
def specPartCount (s : Shard) (ts : List Table) : Nat :=
  ts.countP (fun t => !s.cover_full_table t.smallest t.biggest)

-- ### Concrete inputs used by the witnesses and the counterexample ###

/-- A raft op with the given index (term 1, normal entry). -/
def mkOp (i : Nat) : RaftLogOp := ⟨i, 1, 0, [7], [9]⟩

/-- Round-trip witness batch: two sorted states and two contiguous ops. -/
def wbC1 : RegionBatch :=
  { region_id := 1, truncated_idx := 5,
    states := [([1], [2, 3]), ([2], [4])],
    raft_logs := [⟨10, 3, 0, [1, 2], [3]⟩, ⟨11, 3, 0, [], [6]⟩] }

/-- Witness region data for the empty-value deletion claim. -/
def rdC2 : RegionData :=
  { region_id := 5, truncated_idx := 0, raft_logs := ⟨[]⟩,
    states := [([1], [8])], dependents := [] }

/-- Witness batch binding key `[1]` to the empty value. -/
def batchC2 : RegionBatch :=
  { region_id := 5, truncated_idx := 0, states := [([1], [])], raft_logs := [] }

/-- Witness engine holding the post-apply region data under region id 5. -/
def enC2 : RfEngine := ⟨[(5, (rdC2.apply batchC2).1)]⟩

/-- Witness batch for `append_raft_log`: staged ops at indices 1, 2, 3. -/
def rbC4 : RegionBatch :=
  { region_id := 1, truncated_idx := 0, states := [],
    raft_logs := [mkOp 1, mkOp 2, mkOp 3] }

/-- Witness region data for the prefix read: keys `[1,2]` and `[1,3]`. -/
def rdC5 : RegionData :=
  { region_id := 2, truncated_idx := 0, raft_logs := ⟨[]⟩,
    states := [([1, 2], [5]), ([1, 3], [6])], dependents := [] }

/-- Witness engine for the prefix read. -/
def enC5 : RfEngine := ⟨[(2, rdC5)]⟩

/-- Counterexample region data: one state whose key starts with the empty
prefix. -/
def cexRD : RegionData :=
  { region_id := 1, truncated_idx := 0, raft_logs := ⟨[]⟩,
    states := [([0], [7])], dependents := [] }

/-- Counterexample engine for the empty-prefix read. -/
def cexEN : RfEngine := ⟨[(1, cexRD)]⟩

/-- A shard-stats record with the given id, memtable size and L0 size (the
other fields are inert for the ranking). -/
def exShard (i mem l0 : Nat) : ShardStats :=
  { id := i, ver := 0, start := [], endKey := [], active := true,
    compacting := false, flushed := true, mem_table_count := 1,
    mem_table_size := mem, l0_table_count := 1, l0_table_size := l0,
    cfs := List.replicate 3 ⟨[]⟩, base_version := 0, max_mem_table_size := 0,
    meta_sequence := 0, write_sequence := 0, total_size := 0,
    part_l0s := 0, part_tbls := 0 }

-- ### Lemmas ###

theorem leBytes_length (w n : Nat) : (leBytes w n).length = w := by
  induction w generalizing n with
  | zero => rfl
  | succ w ih => simp [leBytes, ih]

theorem readLE_leBytes (w n : Nat) (r : List Nat) :
    readLE w (leBytes w n ++ r) = n % 256 ^ w := by
  induction w generalizing n with
  | zero => simp [leBytes, readLE, Nat.mod_one]
  | succ w ih =>
    rw [show (256 : Nat) ^ (w + 1) = 256 * 256 ^ w by ring, Nat.mod_mul]
    simp only [leBytes, List.cons_append, readLE, List.append_eq]
    rw [ih]

theorem readLE_leBytes_of_lt (w n : Nat) (r : List Nat) (h : n < 256 ^ w) :
    readLE w (leBytes w n ++ r) = n := by
  rw [readLE_leBytes, Nat.mod_eq_of_lt h]

theorem drop_leBytes (w n : Nat) (r : List Nat) :
    (leBytes w n ++ r).drop w = r := by
  rw [List.drop_append_of_le_length (by simp [leBytes_length])]
  simp [leBytes_length]


theorem lexLt_irrefl (a : Bytes) : lexLt a a = false := by
  induction a with
  | nil => rfl
  | cons x xs ih => simp [lexLt, ih]

theorem lexLt_asymm (a b : Bytes) (h : lexLt a b = true) : lexLt b a = false := by
  induction a generalizing b with
  | nil =>
    cases b with
    | nil => simp [lexLt] at h
    | cons y ys => rfl
  | cons x xs ih =>
    cases b with
    | nil => simp [lexLt] at h
    | cons y ys =>
      simp only [lexLt] at h ⊢
      rcases Nat.lt_trichotomy x y with hlt | heq | hgt
      · simp [hlt, Nat.lt_asymm hlt, Nat.ne_of_lt hlt]
      · subst heq
        simp only [lt_irrefl, if_false] at h ⊢
        exact ih ys h
      · simp [hgt, Nat.lt_asymm hgt] at h

theorem lexLt_ne (a b : Bytes) (h : lexLt a b = true) : a ≠ b := by
  intro he
  subst he
  rw [lexLt_irrefl] at h
  exact Bool.noConfusion h

theorem getState_remove_self (m : List (Bytes × Bytes)) (k : Bytes) :
    getState (removeState m k) k = none := by
  induction m with
  | nil => rfl
  | cons kv rest ih =>
    by_cases h : kv.1 = k
    · simpa [removeState, List.filter_cons, h] using ih
    · simpa [removeState, List.filter_cons, h, getState] using ih

theorem getState_remove_ne (m : List (Bytes × Bytes)) (k0 k : Bytes) (h : k ≠ k0) :
    getState (removeState m k0) k = getState m k := by
  have hk0 : ¬(k0 = k) := fun he => h he.symm
  induction m with
  | nil => rfl
  | cons kv rest ih =>
    by_cases hk : kv.1 = k0
    · have h1 : ¬(kv.1 = k) := fun he => hk0 (hk ▸ he)
      simpa [removeState, List.filter_cons, hk, getState, h1, hk0] using ih
    · by_cases he : kv.1 = k
      · simp [removeState, List.filter_cons, hk, getState, he, h, hk0]
      · simpa [removeState, List.filter_cons, hk, getState, he] using ih

theorem getState_insert_ne (m : List (Bytes × Bytes)) (k0 k : Bytes) (v : Bytes)
    (h : k ≠ k0) : getState (insertState m k0 v) k = getState m k := by
  have hk0 : ¬(k0 = k) := fun he => h he.symm
  induction m with
  | nil => simp [insertState, getState, hk0]
  | cons kv rest ih =>
    simp only [insertState]
    by_cases hlt : lexLt k0 kv.1 = true
    · simp [hlt, getState, hk0]
    · by_cases heq : k0 = kv.1
      · have h1 : ¬(kv.1 = k) := fun he => hk0 (heq.trans he)
        simp [hlt, heq, getState, h1, lexLt_irrefl]
      · by_cases he : kv.1 = k
        · rw [if_neg hlt, if_neg heq]
          simp [getState, he]
        · rw [if_neg hlt, if_neg heq]
          simpa [getState, he] using ih

theorem applyStates_cons_del (m : List (Bytes × Bytes)) (kv : Bytes × Bytes)
    (rest : List (Bytes × Bytes)) (hv : kv.2 = []) :
    applyStates m (kv :: rest) = applyStates (removeState m kv.1) rest := by
  simp [applyStates, hv]

theorem applyStates_cons_ins (m : List (Bytes × Bytes)) (kv : Bytes × Bytes)
    (rest : List (Bytes × Bytes)) (hv : ¬kv.2 = []) :
    applyStates m (kv :: rest) = applyStates (insertState m kv.1 kv.2) rest := by
  simp [applyStates, hv]

theorem applyStates_fresh (bs : List (Bytes × Bytes)) (m : List (Bytes × Bytes))
    (k : Bytes) (h : ∀ q ∈ bs, q.1 ≠ k) :
    getState (applyStates m bs) k = getState m k := by
  induction bs generalizing m with
  | nil => rfl
  | cons kv rest ih =>
    have hk : kv.1 ≠ k := h kv (List.mem_cons_self kv rest)
    have hrest : ∀ q ∈ rest, q.1 ≠ k := fun q hq => h q (List.mem_cons_of_mem kv hq)
    by_cases hv : kv.2 = []
    · rw [applyStates_cons_del m kv rest hv, ih _ hrest,
        getState_remove_ne m kv.1 k (fun he => hk he.symm)]
    · rw [applyStates_cons_ins m kv rest hv, ih _ hrest,
        getState_insert_ne m kv.1 k kv.2 (fun he => hk he.symm)]

theorem applyStates_remove (bs : List (Bytes × Bytes)) (m : List (Bytes × Bytes))
    (k : Bytes) (hnd : nodupKeysB bs = true) (hk : getState bs k = some []) :
    getState (applyStates m bs) k = none := by
  induction bs generalizing m with
  | nil => exact absurd hk (by simp [getState])
  | cons kv rest ih =>
    simp only [nodupKeysB, Bool.and_eq_true, List.all_eq_true] at hnd
    by_cases he : kv.1 = k
    · have hv : kv.2 = [] := by
        simp only [getState, he, if_true, eq_self_iff_true] at hk
        exact Option.some_injective _ hk
      rw [applyStates_cons_del m kv rest hv]
      have hfresh : ∀ q ∈ rest, q.1 ≠ k := by
        intro q hq heq
        have := hnd.1 q hq
        rw [bne_iff_ne] at this
        exact this (heq.trans he.symm)
      rw [applyStates_fresh rest (removeState m kv.1) k hfresh, he,
        getState_remove_self]
    · have hk2 : getState rest k = some [] := by
        simpa [getState, he] using hk
      by_cases hv : kv.2 = []
      · rw [applyStates_cons_del m kv rest hv]
        exact ih (removeState m kv.1) hnd.2 hk2
      · rw [applyStates_cons_ins m kv rest hv]
        exact ih (insertState m kv.1 kv.2) hnd.2 hk2

theorem foldl_applyLogStep_inert (ops : List RaftLogOp)
    (st : RegionData × List RaftLogBlock) :
    (ops.foldl applyLogStep st).1.states = st.1.states ∧
    (ops.foldl applyLogStep st).1.truncated_idx = st.1.truncated_idx ∧
    (ops.foldl applyLogStep st).1.region_id = st.1.region_id ∧
    (ops.foldl applyLogStep st).1.dependents = st.1.dependents := by
  induction ops generalizing st with
  | nil => exact ⟨rfl, rfl, rfl, rfl⟩
  | cons op rest ih =>
    simp only [List.foldl_cons]
    exact ⟨((ih _).1).trans rfl, ((ih _).2.1).trans rfl,
      ((ih _).2.2.1).trans rfl, ((ih _).2.2.2).trans rfl⟩

theorem apply_states_eq (rd : RegionData) (batch : RegionBatch) :
    (rd.apply batch).1.states = applyStates rd.states batch.states := by
  unfold RegionData.apply
  refine ((foldl_applyLogStep_inert _ _).1).trans ?_
  split <;> rfl

theorem apply_truncated_eq (rd : RegionData) (batch : RegionBatch) :
    (rd.apply batch).1.truncated_idx = max rd.truncated_idx batch.truncated_idx := by
  unfold RegionData.apply
  refine ((foldl_applyLogStep_inert _ _).2.1).trans ?_
  by_cases h : rd.truncated_idx < batch.truncated_idx <;> simp [h] <;> omega

-- ### The claim theorems ###

/-- C2: applying a batch whose state map binds a key to the empty value
removes the key from `RegionData.states`, and a subsequent engine
`get_state` for that region and key returns `None`. -/
theorem C2_empty_value_deletes (rd : RegionData) (batch : RegionBatch) (k : Bytes)
    (hnd : nodupKeysB batch.states = true) (hk : getState batch.states k = some []) :
    getState (rd.apply batch).1.states k = none ∧
      ∀ (en : RfEngine) (region_id : Nat),
        lookupRegion en region_id = some (rd.apply batch).1 →
        en.get_state region_id k = none := by
  have habs : getState (rd.apply batch).1.states k = none := by
    rw [apply_states_eq]
    exact applyStates_remove batch.states rd.states k hnd hk
  refine ⟨habs, fun en region_id hlook => ?_⟩
  simp [RfEngine.get_state, RegionData.get_state, hlook, habs]

/-- Witness for C2 at a concrete region, batch and engine. -/
theorem C2_witness :
    getState (rdC2.apply batchC2).1.states [1] = none ∧
      RfEngine.get_state enC2 5 [1] = none := by
  refine ⟨(C2_empty_value_deletes rdC2 batchC2 [1] (by decide) (by decide)).1, ?_⟩
  exact (C2_empty_value_deletes rdC2 batchC2 [1] (by decide) (by decide)).2 enC2 5 (by decide)

/-- C3: `need_truncate()` is true iff `dependents` is empty,
`raft_logs.first_index() > 0` and `truncated_idx ≥ raft_logs.first_index()`. -/
theorem C3_need_truncate_iff (rd : RegionData) :
    rd.need_truncate = true ↔
      rd.dependents = [] ∧ 0 < rd.raft_logs.first_index ∧
        rd.raft_logs.first_index ≤ rd.truncated_idx := by
  simp [RegionData.need_truncate, Bool.and_eq_true, List.isEmpty_iff, and_assoc]

/-- C9: `RegionData::apply` sets `truncated_idx` to the maximum of its
previous value and the batch's `truncated_idx`; consequently it never
decreases across any sequence of applies. -/
theorem C9_truncated_idx_max :
    (∀ (rd : RegionData) (batch : RegionBatch),
      (rd.apply batch).1.truncated_idx = max rd.truncated_idx batch.truncated_idx) ∧
      ∀ (rd : RegionData) (bs : List RegionBatch),
        rd.truncated_idx ≤ (bs.foldl (fun r b => (r.apply b).1) rd).truncated_idx := by
  refine ⟨apply_truncated_eq, fun rd bs => ?_⟩
  induction bs generalizing rd with
  | nil => exact Nat.le_refl _
  | cons b rest ih =>
    simp only [List.foldl_cons]
    exact le_trans (le_trans (Nat.le_max_left _ b.truncated_idx)
      (apply_truncated_eq rd b).symm.le) (ih ((rd.apply b).1))

/-- C10: `get_last_index` returns `None` exactly when the region is absent
or its log is empty (`last_index() == 0`), and never returns `Some 0`. -/
theorem C10_get_last_index (en : RfEngine) (region_id : Nat) :
    (en.get_last_index region_id = none ↔
      lookupRegion en region_id = none ∨
        ∃ rd, lookupRegion en region_id = some rd ∧ rd.raft_logs.last_index = 0) ∧
      ∀ n, en.get_last_index region_id = some n → 0 < n := by
  unfold RfEngine.get_last_index
  cases hlook : lookupRegion en region_id with
  | none => simp
  | some rd =>
    by_cases h : rd.raft_logs.last_index = 0
    · simp [h]
    · simp [h]
      omega

theorem contigB_cons_tail (x : RaftLogOp) (l : List RaftLogOp)
    (h : contigB (x :: l) = true) : contigB l = true := by
  cases l with
  | nil => rfl
  | cons y rest =>
    simp only [contigB, Bool.and_eq_true] at h
    exact h.2

theorem contig_head_lt (l : List RaftLogOp) (x : RaftLogOp)
    (h : contigB (x :: l) = true) : ∀ y ∈ l, x.index < y.index := by
  induction l generalizing x with
  | nil => intro y hy; exact absurd hy (List.not_mem_nil y)
  | cons y rest ih =>
    simp only [contigB, Bool.and_eq_true, beq_iff_eq] at h
    intro z hz
    rcases List.mem_cons.mp hz with hz | hz
    · subst hz; omega
    · have := ih y (by
        have h2 := h.2
        cases rest with
        | nil => rfl
        | cons w r => simpa [contigB] using h2) z hz
      omega

theorem contigB_concat (l : List RaftLogOp) (a : RaftLogOp)
    (h : contigB (l ++ [a]) = true) :
    contigB l = true ∧ ∀ b, l.getLast? = some b → a.index = b.index + 1 := by
  induction l with
  | nil => exact ⟨rfl, fun b hb => nomatch hb⟩
  | cons x rest ih =>
    cases rest with
    | nil =>
      simp only [List.nil_append, List.cons_append, contigB, Bool.and_eq_true,
        beq_iff_eq] at h
      refine ⟨rfl, fun b hb => ?_⟩
      simp only [List.getLast?_singleton, Option.some.injEq] at hb
      rw [← hb]
      exact h.1
    | cons y rest2 =>
      simp only [List.cons_append, contigB, Bool.and_eq_true, beq_iff_eq] at h
      have hih := ih (by
        simpa [List.cons_append, contigB, Bool.and_eq_true] using h.2)
      refine ⟨?_, fun b hb => ?_⟩
      · simp only [contigB, Bool.and_eq_true, beq_iff_eq]
        exact ⟨h.1, hih.1⟩
      · exact hih.2 b (by simpa [List.getLast?_cons_cons] using hb)

theorem contig_all_lt_concat (l : List RaftLogOp) (a : RaftLogOp)
    (h : contigB (l ++ [a]) = true) : ∀ x ∈ l, x.index < a.index := by
  induction l with
  | nil => intro x hx; exact absurd hx (List.not_mem_nil x)
  | cons x rest ih =>
    intro z hz
    rcases List.mem_cons.mp hz with hz | hz
    · subst hz
      exact contig_head_lt _ _ (by simpa using h) a (by simp)
    · exact ih (contigB_cons_tail _ _ (by simpa using h)) z hz

theorem dropBack_spec (l : List RaftLogOp) (t : Nat) (hc : contigB l = true) :
    ∀ back, l.getLast? = some back →
      (t ≤ back.index + 1 →
        (dropBackUntil t l.reverse).reverse =
          l.filter (fun e => decide (e.index < t))) ∧
      (back.index + 1 < t → (dropBackUntil t l.reverse).reverse = []) := by
  induction l using List.reverseRecOn with
  | nil => intro back hb; exact nomatch hb
  | append_singleton l a ih =>
    intro back hb
    rw [List.getLast?_concat] at hb
    obtain rfl : a = back := Option.some_injective _ hb
    have hrev : (l ++ [a]).reverse = a :: l.reverse := by
      simp [List.reverse_append]
    obtain ⟨hcl, hlast⟩ := contigB_concat l a hc
    by_cases he : a.index + 1 = t
    · constructor
      · intro _
        rw [hrev]
        simp only [dropBackUntil, he, beq_self_eq_true, if_true]
        rw [← hrev, List.reverse_reverse]
        refine (List.filter_eq_self.mpr ?_).symm
        intro x hx
        rcases List.mem_append.mp hx with hx | hx
        · have := contig_all_lt_concat l a hc x hx
          simp only [decide_eq_true_eq]
          omega
        · simp only [List.mem_singleton] at hx
          subst hx
          simp only [decide_eq_true_eq]
          omega
      · intro hlt
        omega
    · have hne : (a.index + 1 == t) = false := by
        simp [he]
      rw [hrev]
      simp only [dropBackUntil, hne, Bool.false_eq_true, if_false]
      cases hl : l.getLast? with
      | none =>
        have hnil : l = [] := List.getLast?_eq_none_iff.mp hl
        subst hnil
        constructor
        · intro hle
          have : ¬ a.index < t := by omega
          simp [dropBackUntil, List.filter, decide_eq_true_eq, this]
        · intro _
          simp [dropBackUntil]
      | some b =>
        have hab : a.index = b.index + 1 := hlast b hl
        have hih := ih hcl b hl
        constructor
        · intro hle
          have hle2 : t ≤ b.index + 1 := by omega
          rw [hih.1 hle2, List.filter_append]
          have : (fun e => decide (e.index < t)) a = false := by
            simp only [decide_eq_false_iff_not]
            omega
          simp [List.filter, this]
        · intro hlt
          exact hih.2 (by omega)

/-- C4: `append_raft_log(op)` pops entries from the back until the deque is
empty or the back entry's index is `op.index - 1`, then pushes `op`; on a
normalized (index-contiguous) deque this keeps exactly the entries with
index below `op.index` when `op.index ≤ back.index + 1`, and empties the
deque when `op.index` is beyond `back.index + 1`. -/
theorem C4_append_raft_log (rb : RegionBatch) (op : RaftLogOp)
    (hc : contigB rb.raft_logs = true) :
    (rb.raft_logs = [] → (rb.append_raft_log op).raft_logs = [op]) ∧
      ∀ back, rb.raft_logs.getLast? = some back →
        (op.index ≤ back.index + 1 →
          (rb.append_raft_log op).raft_logs =
            rb.raft_logs.filter (fun e => decide (e.index < op.index)) ++ [op]) ∧
        (back.index + 1 < op.index → (rb.append_raft_log op).raft_logs = [op]) := by
  constructor
  · intro hnil
    simp [RegionBatch.append_raft_log, hnil, dropBackUntil]
  · intro back hb
    have h := dropBack_spec rb.raft_logs op.index hc back hb
    constructor
    · intro hle
      simp only [RegionBatch.append_raft_log]
      rw [h.1 hle]
    · intro hlt
      simp only [RegionBatch.append_raft_log]
      rw [h.2 hlt]
      rfl

/-- Witness for C4: appending an op of index 2 onto staged indices 1,2,3
drops the entries at indices 2 and 3 and pushes the new op. -/
theorem C4_witness : (rbC4.append_raft_log (mkOp 2)).raft_logs = [mkOp 1, mkOp 2] := by
  have h := ((C4_append_raft_log rbC4 (mkOp 2) (by decide)).2 (mkOp 3) (by decide)).1
    (by decide)
  exact h.trans (by decide)

theorem encode_op_length (op : RaftLogOp) : op.encode_to.length = op.encoded_len := by
  simp [RaftLogOp.encode_to, RaftLogOp.encoded_len, List.length_append, leBytes_length]
  omega

theorem encStates_length (ss : List (Bytes × Bytes)) :
    (encStates ss).length = (ss.map (fun kv => 2 + kv.1.length + 4 + kv.2.length)).sum := by
  induction ss with
  | nil => rfl
  | cons kv rest ih =>
    simp [encStates, List.length_append, leBytes_length, ih]
    omega

theorem encLogIdx_length (ops : List RaftLogOp) (e : Nat) :
    (encLogIdx ops e).length = ops.length * 4 := by
  induction ops generalizing e with
  | nil => rfl
  | cons op rest ih =>
    simp [encLogIdx, List.length_append, leBytes_length, ih]
    omega

theorem encLogs_length (ops : List RaftLogOp) :
    (encLogs ops).length = (ops.map RaftLogOp.encoded_len).sum := by
  induction ops with
  | nil => rfl
  | cons op rest ih => simp [encLogs, List.length_append, encode_op_length, ih]

/-- C6: `encoded_len` is exactly the number of bytes `encode_to` writes —
the 36-byte fixed header, `2 + key len + 4 + val len` per state entry, and
4 offset bytes plus the op's encoded length per staged raft log op. -/
theorem C6_encoded_len_exact (b : RegionBatch) :
    b.encoded_len = b.encode_to.length := by
  simp [RegionBatch.encoded_len, RegionBatch.encode_to, List.length_append,
    leBytes_length, encStates_length, encLogIdx_length, encLogs_length]
  omega

theorem decode_encode_op (op : RaftLogOp) (h : op.wfOp) :
    RaftLogOp.decode op.encode_to = op := by
  obtain ⟨h1, h2, h3, h4, h5⟩ := h
  have e64 : (256 : Nat) ^ 8 = 2 ^ 64 := by norm_num
  have e32 : (256 : Nat) ^ 4 = 2 ^ 32 := by norm_num
  simp only [RaftLogOp.decode, RaftLogOp.encode_to, List.append_assoc]
  rw [readLE_leBytes_of_lt 8 _ _ (by rw [e64]; exact h1), drop_leBytes,
    readLE_leBytes_of_lt 8 _ _ (by rw [e64]; exact h2), drop_leBytes,
    readLE_leBytes_of_lt 4 _ _ (by rw [e32]; exact h3), drop_leBytes,
    readLE_leBytes_of_lt 4 _ _ (by rw [e32]; exact h4), drop_leBytes,
    List.take_left, List.drop_left,
    readLE_leBytes_of_lt 4 _ _ (by rw [e32]; exact h5), drop_leBytes,
    List.take_length]

theorem lexLt_asymm_false (a b : Bytes) (h : lexLt a b = true) : ¬ lexLt b a = true := by
  rw [lexLt_asymm a b h]
  exact Bool.noConfusion

theorem insertState_big (m : List (Bytes × Bytes)) (k v : Bytes)
    (h : ∀ q ∈ m, lexLt q.1 k = true) : insertState m k v = m ++ [(k, v)] := by
  induction m with
  | nil => rfl
  | cons kv rest ih =>
    have hk := h kv (List.mem_cons_self kv rest)
    have hne : ¬ (k = kv.1) := fun he => lexLt_ne kv.1 k hk he.symm
    simp only [insertState, lexLt_asymm kv.1 k hk, Bool.false_eq_true, if_false,
      hne, List.cons_append, List.cons.injEq, true_and]
    exact ih (fun q hq => h q (List.mem_cons_of_mem kv hq))

theorem foldl_insert_sorted (ss acc : List (Bytes × Bytes))
    (hs : sortedStrictB ss = true)
    (hacc : ∀ p ∈ acc, ∀ q ∈ ss, lexLt p.1 q.1 = true) :
    ss.foldl (fun a kv => insertState a kv.1 kv.2) acc = acc ++ ss := by
  induction ss generalizing acc with
  | nil => simp
  | cons kv rest ih =>
    simp only [sortedStrictB, Bool.and_eq_true, ltAllB, List.all_eq_true] at hs
    simp only [List.foldl_cons]
    rw [insertState_big acc kv.1 kv.2
      (fun q hq => hacc q hq kv (List.mem_cons_self kv rest))]
    rw [ih (acc ++ [kv]) hs.2 ?_]
    · simp
    · intro p hp q hq
      rcases List.mem_append.mp hp with hp | hp
      · exact hacc p hp q (List.mem_cons_of_mem kv hq)
      · simp only [List.mem_singleton] at hp
        subst hp
        exact hs.1 q hq

theorem decStates_enc (ss : List (Bytes × Bytes)) (rest : List Nat)
    (acc : List (Bytes × Bytes))
    (hb : ∀ kv ∈ ss, kv.1.length < 2 ^ 16 ∧ kv.2.length < 2 ^ 32) :
    decStates ss.length (encStates ss ++ rest) acc =
      (ss.foldl (fun a kv => insertState a kv.1 kv.2) acc, rest) := by
  have e16 : (256 : Nat) ^ 2 = 2 ^ 16 := by norm_num
  have e32 : (256 : Nat) ^ 4 = 2 ^ 32 := by norm_num
  induction ss generalizing acc with
  | nil => rfl
  | cons kv tl ih =>
    have hkv := hb kv (List.mem_cons_self kv tl)
    simp only [List.length_cons, encStates, List.append_assoc, decStates]
    rw [readLE_leBytes_of_lt 2 _ _ (by rw [e16]; exact hkv.1), drop_leBytes,
      List.take_left, List.drop_left,
      readLE_leBytes_of_lt 4 _ _ (by rw [e32]; exact hkv.2), drop_leBytes,
      List.take_left, List.drop_left]
    exact ih (insertState acc kv.1 kv.2)
      (fun q hq => hb q (List.mem_cons_of_mem kv hq))

theorem decLogs_enc (ops : List RaftLogOp) (pre : List Nat) (acc : List RaftLogOp)
    (hwf : ∀ op ∈ ops, op.wfOp)
    (hsum : pre.length + (ops.map RaftLogOp.encoded_len).sum < 2 ^ 32) :
    decLogs ops.length (encLogIdx ops pre.length) (pre ++ encLogs ops)
      pre.length acc = acc ++ ops := by
  have e32 : (256 : Nat) ^ 4 = 2 ^ 32 := by norm_num
  induction ops generalizing pre acc with
  | nil => simp [decLogs]
  | cons op tl ih =>
    have hop := hwf op (List.mem_cons_self op tl)
    have hlen : pre.length + op.encoded_len < 2 ^ 32 := by
      simp only [List.map_cons, List.sum_cons] at hsum
      omega
    simp only [List.length_cons, encLogIdx, encLogs, decLogs]
    rw [readLE_leBytes_of_lt 4 _ _ (by rw [e32]; exact hlen), drop_leBytes]
    have hdrop : (pre ++ (op.encode_to ++ encLogs tl)).drop pre.length =
        op.encode_to ++ encLogs tl := List.drop_left pre _
    have htake : ((pre ++ (op.encode_to ++ encLogs tl)).drop pre.length).take
        (pre.length + op.encoded_len - pre.length) = op.encode_to := by
      rw [hdrop, Nat.add_sub_cancel_left, ← encode_op_length, List.take_left]
    rw [htake, decode_encode_op op hop]
    have hpre2 : (pre ++ op.encode_to).length = pre.length + op.encoded_len := by
      rw [List.length_append, encode_op_length]
    have := ih (pre ++ op.encode_to) (acc ++ [op])
      (fun q hq => hwf q (List.mem_cons_of_mem op hq))
      (by
        rw [hpre2]
        simp only [List.map_cons, List.sum_cons] at hsum
        omega)
    rw [hpre2] at this
    simp only [List.append_assoc] at this ⊢
    rw [this]
    simp

theorem contig_last_head (l : List RaftLogOp) (hc : contigB l = true)
    (x back : RaftLogOp) (hx : l.head? = some x) (hb : l.getLast? = some back) :
    back.index + 1 = x.index + l.length := by
  induction l generalizing x with
  | nil => exact nomatch hx
  | cons a rest ih =>
    have hax : a = x := Option.some_injective _ (by simpa using hx)
    cases rest with
    | nil =>
      have hab : a = back := Option.some_injective _ (by simpa using hb)
      rw [← hax, ← hab]
      simp
    | cons b rest2 =>
      simp only [contigB, Bool.and_eq_true, beq_iff_eq] at hc
      have h2 := ih hc.2 b (by simp) (by simpa [List.getLast?_cons_cons] using hb)
      rw [← hax]
      simp only [List.length_cons] at h2 ⊢
      omega

/-- C1: decoding the bytes produced by encoding a `RegionBatch` yields an
equal `RegionBatch` — same `region_id`, `truncated_idx`, state map (keys
and values in order) and staged log deque (ops in order).  Well-formedness
asks that fields fit the encoded machine widths, that the state map be
strictly sorted and that the deque be index-contiguous. -/
theorem C1_decode_encode (b : RegionBatch) (h : b.wfB) :
    RegionBatch.decode b.encode_to = b := by
  obtain ⟨rid, tidx, ss, ops⟩ := b
  obtain ⟨h1, h2, h3, h4, h5, h6, h7, h8, h9⟩ := h
  have e64 : (256 : Nat) ^ 8 = 2 ^ 64 := by norm_num
  have e32 : (256 : Nat) ^ 4 = 2 ^ 32 := by norm_num
  have hss : ss.foldl (fun a kv => insertState a kv.1 kv.2) [] = ss := by
    have := foldl_insert_sorted ss [] h5
      (fun p hp => absurd hp (List.not_mem_nil p))
    simpa using this
  cases ops with
  | nil =>
    simp only [RegionBatch.decode, RegionBatch.encode_to, List.head?_nil,
      List.getLast?_nil, Option.map_none', Option.getD_none, encLogIdx, encLogs,
      List.append_nil, List.append_assoc]
    rw [readLE_leBytes_of_lt 8 _ _ (by rw [e64]; exact h1), drop_leBytes,
      readLE_leBytes_of_lt 8 _ _ (by rw [e64]; norm_num), drop_leBytes,
      readLE_leBytes_of_lt 8 _ _ (by rw [e64]; norm_num), drop_leBytes,
      readLE_leBytes_of_lt 8 _ _ (by rw [e64]; exact h2), drop_leBytes,
      readLE_leBytes_of_lt 4 _ _ (by rw [e32]; exact h3), drop_leBytes,
      ← List.append_nil (encStates ss), decStates_enc ss [] [] h4]
    simp [decLogs, hss]
  | cons o tl =>
    have hne : (o :: tl) ≠ [] := by simp
    obtain ⟨back, hback⟩ : ∃ back, (o :: tl).getLast? = some back := by
      cases hgl : (o :: tl).getLast? with
      | none => exact absurd (List.getLast?_eq_none_iff.mp hgl) hne
      | some x => exact ⟨x, rfl⟩
    have hback64 : back.index + 1 < 2 ^ 64 := h8 back hback
    have ho64 : o.index < 2 ^ 64 := (h7 o (List.mem_cons_self o tl)).1
    have hlen : back.index + 1 = o.index + (o :: tl).length :=
      contig_last_head (o :: tl) h6 o back (by simp) hback
    have hnum : back.index + 1 - o.index = (o :: tl).length := by omega
    have hoend : (((o :: tl).getLast?).map (fun o => o.index + 1)).getD 0 =
        back.index + 1 := by
      rw [hback]
      rfl
    simp only [RegionBatch.decode, RegionBatch.encode_to, List.head?_cons,
      Option.map_some', Option.getD_some, hoend, List.append_assoc]
    rw [readLE_leBytes_of_lt 8 _ _ (by rw [e64]; exact h1), drop_leBytes,
      readLE_leBytes_of_lt 8 _ _ (by rw [e64]; exact ho64), drop_leBytes,
      readLE_leBytes_of_lt 8 _ _ (by rw [e64]; exact hback64), drop_leBytes,
      readLE_leBytes_of_lt 8 _ _ (by rw [e64]; exact h2), drop_leBytes,
      readLE_leBytes_of_lt 4 _ _ (by rw [e32]; exact h3), drop_leBytes,
      decStates_enc ss _ [] h4]
    simp only [hss, hnum]
    rw [show (o :: tl).length * 4 = (encLogIdx (o :: tl) 0).length from
      (encLogIdx_length (o :: tl) 0).symm, List.take_left, List.drop_left]
    have hdl := decLogs_enc (o :: tl) [] [] h7 (by simpa using h9)
    simp only [List.length_nil, List.nil_append] at hdl
    rw [hdl]

/-- Witness for C1 at a concrete well-formed batch. -/
theorem C1_witness : RegionBatch.decode wbC1.encode_to = wbC1 :=
  C1_decode_encode wbC1 (by decide)

theorem lexLt_nil_right (t : Bytes) : lexLt t [] = false := by
  cases t <;> rfl

theorem range_iff_pre (d : Bytes) (lb : Nat) (k : Bytes) :
    (lexLe (d ++ [lb]) k && lexLt k (d ++ [lb + 1])) = hasPre (d ++ [lb]) k := by
  induction d generalizing k with
  | nil =>
    cases k with
    | nil => rfl
    | cons c t =>
      simp only [List.nil_append, lexLe, lexLt, hasPre, Bool.and_true]
      rcases Nat.lt_trichotomy lb c with h | h | h
      · have h1 : ¬ c < lb := by omega
        have h3 : (lb == c) = false := by simp; omega
        by_cases h4 : c < lb + 1
        · omega
        · by_cases h5 : lb + 1 < c
          · simp [h, h1, h4, h5, h3, hasPre]
          · simp [h, h1, h4, h5, h3, lexLt_nil_right, hasPre]
      · subst h
        simp [Nat.lt_irrefl, Nat.lt_succ_self, hasPre]
      · have h1 : ¬ lb < c := by omega
        have h3 : (lb == c) = false := by simp; omega
        simp [h, h1, h3, hasPre]
  | cons a d2 ih =>
    cases k with
    | nil => rfl
    | cons c t =>
      simp only [List.cons_append, lexLe, lexLt, hasPre]
      rcases Nat.lt_trichotomy a c with h | h | h
      · have h1 : ¬ c < a := by omega
        have h3 : (a == c) = false := by simp; omega
        simp [h, h1, h3]
      · subst h
        simp only [Nat.lt_irrefl, if_false]
        simpa using ih t
      · have h1 : ¬ a < c := by omega
        have h3 : (a == c) = false := by simp; omega
        simp [h, h1, h3]

theorem lexLt_concat_lt (d : Bytes) (a b : Nat) :
    lexLt (d ++ [a]) (d ++ [b]) = decide (a < b) := by
  induction d with
  | nil =>
    simp only [List.nil_append, lexLt]
    rcases Nat.lt_trichotomy a b with h | h | h
    · simp [h]
    · subst h; simp [Nat.lt_irrefl, lexLt_nil_right]
    · have h1 : ¬ a < b := by omega
      simp [h, h1]
  | cons x d2 ih =>
    simpa [List.cons_append, lexLt, Nat.lt_irrefl] using ih

theorem hasPre_concat_succ (d : Bytes) (lb : Nat) :
    hasPre (d ++ [lb]) (d ++ [lb + 1]) = false := by
  rw [← range_iff_pre, lexLt_irrefl, Bool.and_false]

theorem scanRev_all_ne (e : Bytes) (l : List (Bytes × Bytes))
    (h : ∀ q ∈ l, q.1 ≠ e) : scanRev e l = l.head?.map Prod.snd := by
  cases l with
  | nil => rfl
  | cons kv rest => simp [scanRev, h kv (List.mem_cons_self kv rest)]

theorem maxMatch_go_mem (p : Bytes) (l : List (Bytes × Bytes))
    (acc : Option (Bytes × Bytes)) (a : Bytes × Bytes)
    (h : l.foldl (maxMatchStep p) acc = some a) : acc = some a ∨ a ∈ l := by
  induction l generalizing acc with
  | nil => exact Or.inl h
  | cons kv rest ih =>
    simp only [List.foldl_cons] at h
    rcases ih (maxMatchStep p acc kv) h with hstep | hmem
    · unfold maxMatchStep at hstep
      by_cases hp : hasPre p kv.1 = true
      · cases acc with
        | none =>
          simp only [hp, if_true, eq_self_iff_true] at hstep
          exact Or.inr (by simp [← Option.some_injective _ hstep])
        | some b =>
          simp only [hp, if_true, eq_self_iff_true] at hstep
          by_cases hl : lexLt b.1 kv.1 = true
          · rw [if_pos hl] at hstep
            exact Or.inr (by simp [← Option.some_injective _ hstep])
          · rw [if_neg hl] at hstep
            exact Or.inl hstep
      · simp only [hp, Bool.false_eq_true, if_false] at hstep
        exact Or.inl hstep
    · exact Or.inr (List.mem_cons_of_mem kv hmem)

theorem sortedStrictB_concat (l : List (Bytes × Bytes)) (q : Bytes × Bytes)
    (h : sortedStrictB (l ++ [q]) = true) :
    sortedStrictB l = true ∧ ∀ x ∈ l, lexLt x.1 q.1 = true := by
  induction l with
  | nil => exact ⟨rfl, by simp⟩
  | cons kv rest ih =>
    simp only [List.cons_append, sortedStrictB, Bool.and_eq_true, ltAllB,
      List.all_eq_true] at h ⊢
    obtain ⟨hall, hrest⟩ := h
    have hih := ih hrest
    refine ⟨⟨fun x hx => hall x (List.mem_append_left _ hx), hih.1⟩, ?_⟩
    intro x hx
    rcases List.mem_cons.mp hx with hx | hx
    · subst hx
      exact hall q (List.mem_append_right _ (List.mem_singleton_self q))
    · exact hih.2 x hx

theorem maxMatch_eq_getLast (p : Bytes) (l : List (Bytes × Bytes))
    (hs : sortedStrictB l = true) :
    maxMatch p l = (l.filter (fun q => hasPre p q.1)).getLast? := by
  induction l using List.reverseRecOn with
  | nil => rfl
  | append_singleton l q ih =>
    obtain ⟨hsl, hlt⟩ := sortedStrictB_concat l q hs
    have hstep : maxMatch p (l ++ [q]) = maxMatchStep p (maxMatch p l) q := by
      simp [maxMatch, List.foldl_append]
    rw [hstep, List.filter_append]
    by_cases hq : hasPre p q.1 = true
    · have hfq : List.filter (fun q => hasPre p q.1) [q] = [q] := by simp [hq]
      rw [hfq, List.getLast?_concat]
      unfold maxMatchStep
      rw [if_pos hq]
      cases hmm : maxMatch p l with
      | none => rfl
      | some a =>
        have ha : a ∈ l :=
          (maxMatch_go_mem p l none a hmm).resolve_left (fun he => nomatch he)
        simp [hlt a ha]
    · have hfq : List.filter (fun q => hasPre p q.1) [q] = [] := by simp [hq]
      rw [hfq, List.append_nil]
      unfold maxMatchStep
      rw [if_neg hq]
      exact ih hsl

/-- C5 (amended): for a region present in the map whose state map satisfies
the `BTreeMap` sortedness invariant, and a NON-EMPTY prefix whose last byte
is below `0xff`, `get_last_state_with_prefix` returns the value bound to
the greatest key starting with the prefix (`none` when no key matches).
The original claim fails for the empty prefix and for prefixes ending in
`0xff`, where the code aborts (see the counterexample). -/
theorem C5_last_state_with_pre (en : RfEngine) (region_id : Nat) (rd : RegionData)
    (d : Bytes) (lb : Nat) (hlook : lookupRegion en region_id = some rd)
    (hs : sortedStrictB rd.states = true) (hlb : lb < 255) :
    en.get_last_state_with_pre region_id (d ++ [lb]) =
      .ok ((maxMatch (d ++ [lb]) rd.states).map Prod.snd) := by
  unfold RfEngine.get_last_state_with_pre
  rw [hlook]
  have hgl : (d ++ [lb]).getLast? = some lb := List.getLast?_concat d
  rw [hgl]
  have hdl : (d ++ [lb]).dropLast = d := List.dropLast_concat
  have hmod : (lb + 1) % 256 = lb + 1 := Nat.mod_eq_of_lt (by omega)
  simp only [hdl, hmod]
  have hlex : lexLt (d ++ [lb + 1]) (d ++ [lb]) = false := by
    rw [lexLt_concat_lt]
    simp
  rw [hlex]
  simp only [Bool.false_eq_true, if_false]
  have hfil : rd.states.filter
      (fun kv => lexLe (d ++ [lb]) kv.1 && lexLt kv.1 (d ++ [lb + 1])) =
      rd.states.filter (fun kv => hasPre (d ++ [lb]) kv.1) := by
    apply List.filter_congr
    intro kv _
    exact range_iff_pre d lb kv.1
  rw [hfil]
  have hscan : scanRev (d ++ [lb + 1])
      ((rd.states.filter (fun kv => hasPre (d ++ [lb]) kv.1)).reverse) =
      ((rd.states.filter (fun kv => hasPre (d ++ [lb]) kv.1)).reverse).head?.map
        Prod.snd := by
    apply scanRev_all_ne
    intro q hq heq
    have hqf := List.of_mem_filter (List.mem_reverse.mp hq)
    rw [heq, hasPre_concat_succ] at hqf
    exact Bool.noConfusion hqf
  rw [hscan, List.head?_reverse, maxMatch_eq_getLast (d ++ [lb]) rd.states hs]

/-- Witness for C5 (amended) at a concrete engine and prefix `[1]`. -/
theorem C5_witness :
    RfEngine.get_last_state_with_pre enC5 2 [1] = .ok (some [6]) := by
  have h := C5_last_state_with_pre enC5 2 rdC5 [] 1 (by decide) (by decide) (by decide)
  simp only [List.nil_append] at h
  rw [h]
  rfl

/-- Counterexample to C5 as stated: with the empty prefix, every key starts
with the prefix and the greatest one holds value `[7]`, but the code aborts
(`end_prefix[prefix.len() - 1]` is out of bounds) instead of returning it. -/
theorem C5_counterexample :
    RfEngine.get_last_state_with_pre cexEN 1 [] = .error "index out of bounds" ∧
      (maxMatch [] cexRD.states).map Prod.snd = some [7] ∧
      RfEngine.get_last_state_with_pre cexEN 1 [] ≠ .ok (some [7]) := by
  refine ⟨rfl, rfl, ?_⟩
  intro h
  have : RfEngine.get_last_state_with_pre cexEN 1 [] = .error "index out of bounds" := rfl
  rw [this] at h
  exact Except.noConfusion h

theorem insDesc_perm (acc : List ShardStats) (x : ShardStats) :
    (insDesc acc x).Perm (x :: acc) := by
  induction acc with
  | nil => exact List.Perm.refl _
  | cons y rest ih =>
    simp only [insDesc]
    by_cases h : writeKey x ≤ writeKey y
    · rw [if_pos h]
      exact (ih.cons y).trans (List.Perm.swap x y rest)
    · rw [if_neg h]

theorem sortByWriteDesc_perm (l : List ShardStats) : (sortByWriteDesc l).Perm l := by
  have key : ∀ (l acc : List ShardStats), (l.foldl insDesc acc).Perm (acc ++ l) := by
    intro l
    induction l with
    | nil => simp
    | cons x rest ih =>
      intro acc
      simp only [List.foldl_cons]
      exact ((ih (insDesc acc x)).trans
        (((insDesc_perm acc x).append_right rest).trans List.perm_middle.symm))
  simpa using key l []

theorem insDesc_pairwise (acc : List ShardStats) (x : ShardStats)
    (h : List.Pairwise (fun a b => writeKey b ≤ writeKey a) acc) :
    List.Pairwise (fun a b => writeKey b ≤ writeKey a) (insDesc acc x) := by
  induction acc with
  | nil => exact List.pairwise_singleton _ x
  | cons y rest ih =>
    simp only [insDesc]
    rcases List.pairwise_cons.mp h with ⟨hy, hrest⟩
    by_cases hk : writeKey x ≤ writeKey y
    · rw [if_pos hk]
      refine List.pairwise_cons.mpr ⟨?_, ih hrest⟩
      intro z hz
      have hz2 : z ∈ x :: rest := (insDesc_perm rest x).mem_iff.mp hz
      rcases List.mem_cons.mp hz2 with hz3 | hz3
      · subst hz3; exact hk
      · exact hy z hz3
    · rw [if_neg hk]
      refine List.pairwise_cons.mpr ⟨?_, h⟩
      intro z hz
      rcases List.mem_cons.mp hz with hz | hz
      · subst hz; omega
      · exact le_trans (hy z hz) (by omega)

theorem sortByWriteDesc_sorted (l : List ShardStats) :
    List.Pairwise (fun a b => writeKey b ≤ writeKey a) (sortByWriteDesc l) := by
  have key : ∀ (l acc : List ShardStats),
      List.Pairwise (fun a b => writeKey b ≤ writeKey a) acc →
      List.Pairwise (fun a b => writeKey b ≤ writeKey a) (l.foldl insDesc acc) := by
    intro l
    induction l with
    | nil => exact fun acc h => h
    | cons x rest ih =>
      intro acc h
      exact ih (insDesc acc x) (insDesc_pairwise acc x h)
  exact key l [] (List.Pairwise.nil)

/-- C7: `get_engine_stats` ranks the shards by `mem_table_size +
l0_table_size` in descending order and keeps at most ten — `top_10_write`
is descending-sorted, has length `min 10 n`, draws from the input, and the
remainder completing a permutation of the input consists of shards whose
write key is at most every kept shard's write key (so the kept shards are
the ten largest); on the concrete 3-shard example with sizes (100+10,
50+5, 200+20) the order is shard 3, shard 1, shard 2. -/
theorem C7_top_10_write :
    (∀ shards : List ShardStats,
      List.Pairwise (fun a b => writeKey b ≤ writeKey a)
        (get_engine_stats shards).top_10_write ∧
      (get_engine_stats shards).top_10_write.length = min 10 shards.length ∧
      (∀ s ∈ (get_engine_stats shards).top_10_write, s ∈ shards) ∧
      ∃ rest, ((get_engine_stats shards).top_10_write ++ rest).Perm shards ∧
        ∀ s ∈ rest, ∀ t ∈ (get_engine_stats shards).top_10_write,
          writeKey s ≤ writeKey t) ∧
    ((get_engine_stats
        [exShard 1 100 10, exShard 2 50 5, exShard 3 200 20]).top_10_write.map
      ShardStats.id = [3, 1, 2]) := by
  constructor
  · intro shards
    have htop : (get_engine_stats shards).top_10_write =
        (sortByWriteDesc shards).take 10 := rfl
    have hperm := sortByWriteDesc_perm shards
    have hpw := sortByWriteDesc_sorted shards
    refine ⟨?_, ?_, ?_, ?_⟩
    · rw [htop]
      exact hpw.sublist (List.take_sublist _ _)
    · rw [htop, List.length_take, hperm.length_eq]
    · intro s hs
      rw [htop] at hs
      exact hperm.mem_iff.mp (List.mem_of_mem_take hs)
    · refine ⟨(sortByWriteDesc shards).drop 10, ?_, ?_⟩
      · rw [htop, List.take_append_drop]
        exact hperm
      · rw [htop]
        rw [← List.take_append_drop 10 (sortByWriteDesc shards)] at hpw
        rcases List.pairwise_append.mp hpw with ⟨-, -, hcross⟩
        exact fun s hs t ht => hcross t ht s hs
  · decide

theorem specTblSize_cons (s : Shard) (t : Table) (rest : List Table) :
    specTblSize s (t :: rest) =
      (if s.cover_full_table t.smallest t.biggest then t.size else t.size / 2) +
        specTblSize s rest := by
  simp [specTblSize]

theorem specPartCount_cons (s : Shard) (t : Table) (rest : List Table) :
    specPartCount s (t :: rest) =
      (if s.cover_full_table t.smallest t.biggest then 0 else 1) +
        specPartCount s rest := by
  by_cases hc : s.cover_full_table t.smallest t.biggest = true
  · simp [specPartCount, List.countP_cons, hc]
  · simp [specPartCount, List.countP_cons, hc]
    omega

theorem tblFold_spec (s : Shard) (ts : List Table) (dacc pacc : Nat) :
    ts.foldl (tblStep s) (dacc, pacc) =
      (dacc + specTblSize s ts, pacc + specPartCount s ts) := by
  induction ts generalizing dacc pacc with
  | nil => simp [specTblSize, specPartCount]
  | cons t rest ih =>
    rw [List.foldl_cons]
    by_cases hc : s.cover_full_table t.smallest t.biggest = true
    · have hstep : tblStep s (dacc, pacc) t = (dacc + t.size, pacc) := by
        simp [tblStep, hc]
      rw [hstep, ih, specTblSize_cons, specPartCount_cons]
      simp only [hc, if_true, Prod.mk.injEq]
      omega
    · have hstep : tblStep s (dacc, pacc) t = (dacc + t.size / 2, pacc + 1) := by
        simp [tblStep, hc]
      rw [hstep, ih, specTblSize_cons, specPartCount_cons]
      simp only [hc, Bool.false_eq_true, if_false, Prod.mk.injEq]
      omega

theorem levelsFold_spec (s : Shard) (levels : List Level) (lst : List LevelStats)
    (pacc tot : Nat) :
    levels.foldl (levelStep s) (lst, pacc, tot) =
      (lst ++ levels.map (fun l =>
        { level := l.level, num_tables := l.tables.length,
          data_size := specTblSize s l.tables }),
       pacc + (levels.map (fun l => specPartCount s l.tables)).sum,
       tot + (levels.map (fun l => specTblSize s l.tables)).sum) := by
  induction levels generalizing lst pacc tot with
  | nil => simp
  | cons l rest ih =>
    rw [List.foldl_cons]
    have hstep : levelStep s (lst, pacc, tot) l =
        (lst ++ [({ level := l.level, num_tables := l.tables.length, data_size := specTblSize s l.tables } : LevelStats)],
         pacc + specPartCount s l.tables, tot + specTblSize s l.tables) := by
      simp [levelStep, tblFold_spec]
    rw [hstep, ih]
    simp only [List.map_cons, List.sum_cons, List.append_assoc,
      List.singleton_append, Prod.mk.injEq]
    refine ⟨?_, ?_, ?_⟩ <;> first | trivial | omega

theorem cfFold_spec (s : Shard) (idxs : List Nat) (cfsAcc : List CFStats)
    (pacc tot : Nat) :
    idxs.foldl (cfStep s) (cfsAcc, pacc, tot) =
      (cfsAcc ++ idxs.map (fun cf =>
        (⟨(s.get_cf cf).levels.map (fun l =>
          { level := l.level, num_tables := l.tables.length,
            data_size := specTblSize s l.tables })⟩ : CFStats)),
       pacc + (idxs.map (fun cf =>
         ((s.get_cf cf).levels.map (fun l => specPartCount s l.tables)).sum)).sum,
       tot + (idxs.map (fun cf =>
         ((s.get_cf cf).levels.map (fun l => specTblSize s l.tables)).sum)).sum) := by
  induction idxs generalizing cfsAcc pacc tot with
  | nil => simp
  | cons cf rest ih =>
    rw [List.foldl_cons]
    have hstep : cfStep s (cfsAcc, pacc, tot) cf =
        (cfsAcc ++ [(⟨(s.get_cf cf).levels.map (fun l =>
          { level := l.level, num_tables := l.tables.length,
            data_size := specTblSize s l.tables })⟩ : CFStats)],
         pacc + ((s.get_cf cf).levels.map (fun l => specPartCount s l.tables)).sum,
         tot + ((s.get_cf cf).levels.map (fun l => specTblSize s l.tables)).sum) := by
      simp [cfStep, levelsFold_spec]
    rw [hstep, ih]
    simp only [List.map_cons, List.sum_cons, List.append_assoc,
      List.singleton_append, Prod.mk.injEq]
    refine ⟨?_, ?_, ?_⟩ <;> first | trivial | omega

/-- C8: in `Shard::get_stats` every table whose key range is not fully
covered by the shard's `[start, end)` boundary contributes half its byte
size (integer division) and bumps the partial counter (`partial_l0s` for L0
tables, `partial_tbls` for leveled tables); fully covered tables contribute
their whole size and leave the counters unchanged. -/
theorem C8_partial_tables (s : Shard) :
    s.get_stats.l0_table_size = specTblSize s s.l0_tbls ∧
    s.get_stats.part_l0s = specPartCount s s.l0_tbls ∧
    s.get_stats.cfs = (List.range NUM_CFS).map (fun cf =>
      (⟨(s.get_cf cf).levels.map (fun l =>
        { level := l.level, num_tables := l.tables.length,
          data_size := specTblSize s l.tables })⟩ : CFStats)) ∧
    s.get_stats.part_tbls = ((List.range NUM_CFS).map (fun cf =>
      ((s.get_cf cf).levels.map (fun l => specPartCount s l.tables)).sum)).sum := by
  simp only [Shard.get_stats]
  rw [tblFold_spec, cfFold_spec]
  simp only [Nat.zero_add, List.nil_append]
  trivial
